import Mathlib

set_option maxRecDepth 100000

/-!
Verification of the `sequential_id_alloc` macro-generated allocator
(`src/lib.rs`).

The generated struct holds `next_ptr : usize` and a bit array `bits`.
For the shipped instantiation `sequential_id_alloc!(_, u8, 256, u8)` the
storage type `BitArr![for 256 - 1, in u8]` rounds 255 bits up to 32 bytes,
so the array holds exactly 256 bits and the scan bound `take(256)` equals
the storage length.  We embed the state as a `next_ptr : Nat` together with
a `List Bool` of occupancy bits; the capacity of an allocator is the length
of that list.

`alloc` in the source is
  `bits.into_iter().enumerate().cycle().skip(next_ptr).take(max)
      .filter_map(|(i, b)| if !b { Some(i) } else { None }).next()?`
followed by `bits.set(index, true); next_ptr = index + 1`.
The element of the cycled enumerated stream at position `p` is
`(p % len, bits[p % len])`, so after `skip(next_ptr)` the scan probes
positions `next_ptr + j` for `j < max` and returns the first probe whose
bit is clear.  `findClearFrom` below implements exactly that probe loop,
with `fuel` playing the role of the remaining `take` budget.
-/

/-- The bounded cyclic scan of `alloc`: starting at stream position `pos`,
probe at most `fuel` consecutive positions of the cycled, enumerated bit
iterator and return the index of the first clear bit found, if any. -/
def findClearFrom (bits : List Bool) : Nat → Nat → Option Nat
  | _, 0 => none
  | pos, fuel + 1 =>
    let i := pos % bits.length
    if bits.getD i true then findClearFrom bits (pos + 1) fuel else some i

/-- State of a generated allocator: the `next_ptr` cursor and the occupancy
bit array (`bits` in the source).  The capacity is `bits.length`. -/
structure SeqIdAlloc where
  next_ptr : Nat
  bits : List Bool

/-- Capacity of the allocator: the number of occupancy bits. -/
def SeqIdAlloc.capacity (a : SeqIdAlloc) : Nat := a.bits.length

/-- `Default::default()`: cursor 0, all bits clear, with `cap` bits. -/
def SeqIdAlloc.init (cap : Nat) : SeqIdAlloc :=
  ⟨0, List.replicate cap false⟩

/-- `alloc` at the index level (the `usize` the scan produces, before the
conversion to the external identifier type): returns the allocated index and
the successor state.  On a failed scan (`next()?` is `None`) the state is
returned unchanged. -/
def SeqIdAlloc.alloc (a : SeqIdAlloc) : Option Nat × SeqIdAlloc :=
  match findClearFrom a.bits a.next_ptr a.bits.length with
  | none => (none, a)
  | some i => (some i, ⟨i + 1, a.bits.set i true⟩)

/-- `dealloc`: clear the occupancy bit at the identifier's index.  The
cursor is untouched. -/
def SeqIdAlloc.dealloc (a : SeqIdAlloc) (id : Nat) : SeqIdAlloc :=
  ⟨a.next_ptr, a.bits.set id false⟩

/-- `contains`: the occupancy bit at the identifier's index. -/
def SeqIdAlloc.contains (a : SeqIdAlloc) (id : Nat) : Bool :=
  a.bits.getD id false

/-- `is_full`: `count_zeros == 0`. -/
def SeqIdAlloc.is_full (a : SeqIdAlloc) : Bool :=
  a.bits.count false == 0

/-- `size`: `count_ones`. -/
def SeqIdAlloc.size (a : SeqIdAlloc) : Nat :=
  a.bits.count true

/-- `u8::try_from(index).ok()` for the `u8` external identifier type:
succeeds exactly when the index fits in a byte. -/
def u8TryFrom (n : Nat) : Option (Fin 256) :=
  if h : n < 256 then some ⟨n, h⟩ else none

/-- `alloc` of the `u8` instantiation `SequentialIdAllocU8`: as in the
source, the bit is set and the cursor advanced before the index is
converted, so a (hypothetical) conversion failure would still mutate. -/
def SeqIdAlloc.allocU8 (a : SeqIdAlloc) : Option (Fin 256) × SeqIdAlloc :=
  match findClearFrom a.bits a.next_ptr a.bits.length with
  | none => (none, a)
  | some i => (u8TryFrom i, ⟨i + 1, a.bits.set i true⟩)

/-- `dealloc` taking a `u8` identifier (`id.into()` is `id.val`). -/
def SeqIdAlloc.deallocU8 (a : SeqIdAlloc) (id : Fin 256) : SeqIdAlloc :=
  a.dealloc id.val

/-- `contains` taking a `u8` identifier. -/
def SeqIdAlloc.containsU8 (a : SeqIdAlloc) (id : Fin 256) : Bool :=
  a.contains id.val

/-- Iterate `alloc` `n` times, discarding the returned identifiers. -/
def SeqIdAlloc.allocN (a : SeqIdAlloc) : Nat → SeqIdAlloc
  | 0 => a
  | n + 1 => (a.alloc).2.allocN n

/-- Iterate the `u8` `alloc` `n` times, collecting the results in order. -/
def SeqIdAlloc.allocSeq (a : SeqIdAlloc) : Nat → List (Option (Fin 256)) × SeqIdAlloc
  | 0 => ([], a)
  | n + 1 =>
    let r := a.allocU8
    let rest := r.2.allocSeq n
    (r.1 :: rest.1, rest.2)

/-- Unfolding equation for one probe of the scan. -/
theorem findClearFrom_succ (bits : List Bool) (pos fuel : Nat) :
    findClearFrom bits pos (fuel + 1) =
      if bits.getD (pos % bits.length) true then findClearFrom bits (pos + 1) fuel
      else some (pos % bits.length) := rfl

/-- A successful scan returns an in-range index whose bit is clear. -/
theorem findClearFrom_some {bits : List Bool} :
    ∀ {fuel pos i : Nat}, findClearFrom bits pos fuel = some i →
      i < bits.length ∧ bits.getD i true = false := by
  intro fuel
  induction fuel with
  | zero =>
    intro pos i h
    exact absurd h (by simp [findClearFrom])
  | succ n ih =>
    intro pos i h
    rw [findClearFrom_succ] at h
    by_cases hb : bits.getD (pos % bits.length) true
    · rw [if_pos hb] at h
      exact ih h
    · rw [if_neg hb] at h
      obtain rfl : pos % bits.length = i := by simpa using h
      refine ⟨?_, by simpa using hb⟩
      rcases Nat.eq_zero_or_pos bits.length with h0 | h0
      · exact absurd (by simp [List.length_eq_zero.mp h0]) hb
      · exact Nat.mod_lt _ h0

/-- If every bit is set, each individual `getD` probe sees `true`. -/
theorem getD_true_of_count_false {bits : List Bool}
    (hb : bits.count false = 0) (i : Nat) : bits.getD i true = true := by
  have hmem : false ∉ bits := List.count_eq_zero.mp hb
  rcases Nat.lt_or_ge i bits.length with hlt | hge
  · rw [List.getD_eq_getElem _ _ hlt]
    cases hget : bits[i] with
    | false => exact absurd (hget ▸ List.getElem_mem hlt) hmem
    | true => rfl
  · exact List.getD_eq_default _ _ hge

/-- On a fully occupied bit array the scan fails, whatever the cursor and
the probe budget. -/
theorem findClearFrom_of_full {bits : List Bool} (hb : bits.count false = 0) :
    ∀ fuel pos, findClearFrom bits pos fuel = none := by
  intro fuel
  induction fuel with
  | zero => intro pos; rfl
  | succ n ih =>
    intro pos
    rw [findClearFrom_succ, if_pos (getD_true_of_count_false hb _)]
    exact ih (pos + 1)

/-- A failed scan means every probed position held a set bit. -/
theorem findClearFrom_none_probe {bits : List Bool} :
    ∀ {fuel pos : Nat}, findClearFrom bits pos fuel = none →
      ∀ j < fuel, bits.getD ((pos + j) % bits.length) true = true := by
  intro fuel
  induction fuel with
  | zero => intro pos _ j hj; exact absurd hj (Nat.not_lt_zero j)
  | succ n ih =>
    intro pos h j hj
    rw [findClearFrom_succ] at h
    by_cases hb : bits.getD (pos % bits.length) true
    · rw [if_pos hb] at h
      cases j with
      | zero => simpa using hb
      | succ k =>
        have hk := ih h k (by omega)
        rw [show pos + (k + 1) = pos + 1 + k by omega]
        exact hk
    · rw [if_neg hb] at h
      exact absurd h (by simp)

/-- Within `len` consecutive probes the circular scan visits every index of
a nonempty pool. -/
theorem probe_hits (len pos i : Nat) (hlen : 0 < len) (hi : i < len) :
    ∃ j, j < len ∧ (pos + j) % len = i := by
  refine ⟨(i + len - pos % len) % len, Nat.mod_lt _ hlen, ?_⟩
  rw [Nat.add_mod_mod, ← Nat.mod_add_mod]
  have hs : pos % len < len := Nat.mod_lt _ hlen
  rw [show pos % len + (i + len - pos % len) = i + len by omega]
  rw [Nat.add_mod_right, Nat.mod_eq_of_lt hi]

/-- If a scan with a full budget of `bits.length` probes fails, the pool is
fully occupied. -/
theorem count_false_zero_of_scan_none {bits : List Bool} {pos : Nat}
    (h : findClearFrom bits pos bits.length = none) : bits.count false = 0 := by
  rcases Nat.eq_zero_or_pos bits.length with h0 | h0
  · rw [List.length_eq_zero.mp h0]
    rfl
  · rw [List.count_eq_zero]
    intro hmem
    obtain ⟨⟨i, hilt⟩, hget⟩ := List.mem_iff_get.mp hmem
    obtain ⟨j, hjlt, hji⟩ := probe_hits bits.length pos i h0 hilt
    have hprobe := findClearFrom_none_probe h j hjlt
    rw [hji, List.getD_eq_getElem _ _ hilt] at hprobe
    rw [List.get_eq_getElem] at hget
    rw [hget] at hprobe
    exact Bool.false_ne_true hprobe

/-- The scan depends on the start position only through its residue modulo
the pool size. -/
theorem findClearFrom_congr {bits : List Bool} :
    ∀ (fuel : Nat) {s t : Nat}, s % bits.length = t % bits.length →
      findClearFrom bits s fuel = findClearFrom bits t fuel := by
  intro fuel
  induction fuel with
  | zero => intro s t _; rfl
  | succ n ih =>
    intro s t hst
    rw [findClearFrom_succ, findClearFrom_succ, hst]
    have hst1 : (s + 1) % bits.length = (t + 1) % bits.length := by
      rw [← Nat.mod_add_mod, hst, Nat.mod_add_mod]
    rw [ih hst1]

/-- A Boolean list's `true`s and `false`s together exhaust its length. -/
theorem count_true_add_count_false (l : List Bool) :
    l.count true + l.count false = l.length := by
  induction l with
  | nil => rfl
  | cons b t ih =>
    cases b <;> simp [List.count_cons] <;> omega

/-- C1.  Delayed reuse on the fresh `u8` allocator: three allocations give
0, 1, 2; after freeing 1 the next allocation gives 3, not 1. -/
theorem C1_delayed_reuse :
    (SeqIdAlloc.init 256).allocU8.1 = some 0
    ∧ (SeqIdAlloc.init 256).allocU8.2.allocU8.1 = some 1
    ∧ (SeqIdAlloc.init 256).allocU8.2.allocU8.2.allocU8.1 = some 2
    ∧ ((SeqIdAlloc.init 256).allocU8.2.allocU8.2.allocU8.2.deallocU8
        1).allocU8.1 = some 3 := by
  decide

/-- C2.  Exhaustion: 256 allocations on the fresh `u8` allocator return
exactly 0, 1, …, 255 in order; the 257th returns `none`; the allocator is
then full. -/
theorem C2_exhaustion :
    ((SeqIdAlloc.init 256).allocSeq 256).1 = (List.finRange 256).map some
    ∧ ((SeqIdAlloc.init 256).allocSeq 256).2.allocU8.1 = none
    ∧ ((SeqIdAlloc.init 256).allocSeq 256).2.is_full = true := by
  decide

/-- C3.  Wrap reuse: after filling to capacity the cursor has wrapped, so
freeing 5 makes the very next allocation return 5. -/
theorem C3_wrap_reuse :
    (((SeqIdAlloc.init 256).allocN 256).deallocU8 5).allocU8.1 = some 5 := by
  decide

/-- States reachable from the freshly constructed allocator of capacity
`cap` by `alloc` calls and in-range `dealloc` calls. -/
inductive Reachable (cap : Nat) : SeqIdAlloc → Prop where
  | init : Reachable cap (SeqIdAlloc.init cap)
  | alloc_step (a : SeqIdAlloc) : Reachable cap a → Reachable cap a.alloc.2
  | dealloc_step (a : SeqIdAlloc) (id : Nat) : Reachable cap a → id < cap →
      Reachable cap (a.dealloc id)

/-- The pool size is an invariant of every reachable state. -/
theorem Reachable.length_eq {cap : Nat} {a : SeqIdAlloc} (h : Reachable cap a) :
    a.bits.length = cap := by
  induction h with
  | init => simp [SeqIdAlloc.init]
  | alloc_step b hb ih =>
    unfold SeqIdAlloc.alloc
    cases hfc : findClearFrom b.bits b.next_ptr b.bits.length with
    | none => simpa using ih
    | some i => simpa using ih
  | dealloc_step b id hb hid ih =>
    simpa [SeqIdAlloc.dealloc] using ih

/-- The stored cursor of a reachable state never exceeds the capacity. -/
theorem Reachable.next_ptr_le {cap : Nat} {a : SeqIdAlloc} (h : Reachable cap a) :
    a.next_ptr ≤ cap := by
  induction h with
  | init => simp [SeqIdAlloc.init]
  | alloc_step b hb ih =>
    unfold SeqIdAlloc.alloc
    cases hfc : findClearFrom b.bits b.next_ptr b.bits.length with
    | none => simpa using ih
    | some i =>
      have hi := (findClearFrom_some hfc).1
      have hlen := hb.length_eq
      simp only []
      omega
  | dealloc_step b id hb hid ih => exact ih

/-- Iterated allocation stays inside the reachable states. -/
theorem reachable_allocN (cap n : Nat) :
    ∀ a : SeqIdAlloc, Reachable cap a → Reachable cap (a.allocN n) := by
  induction n with
  | zero => intro a h; exact h
  | succ k ih =>
    intro a h
    exact ih _ (Reachable.alloc_step a h)

/-- C4.  Exhaustion is atomic: on any fully occupied state, `alloc` returns
`none` and every occupancy bit and the cursor are unchanged. -/
theorem C4_exhaustion_atomic (a : SeqIdAlloc) (h : a.is_full = true) :
    a.alloc = (none, a) := by
  have hc : a.bits.count false = 0 := by
    simpa [SeqIdAlloc.is_full] using h
  unfold SeqIdAlloc.alloc
  rw [findClearFrom_of_full hc]

/-- Witness for C4 at the concrete full state `⟨0, [true, true]⟩`. -/
theorem C4_exhaustion_atomic_witness :
    SeqIdAlloc.alloc ⟨0, [true, true]⟩ = (none, ⟨0, [true, true]⟩) :=
  C4_exhaustion_atomic ⟨0, [true, true]⟩ (by decide)

/-- C5 counterexample.  The claim "the cursor lies in [0, capacity)" fails:
after 256 allocations from the fresh capacity-256 allocator — a reachable
state — the stored cursor `next_ptr` equals 256. -/
theorem C5_cursor_counterexample :
    Reachable 256 ((SeqIdAlloc.init 256).allocN 256)
    ∧ ¬ ((SeqIdAlloc.init 256).allocN 256).next_ptr < 256 := by
  refine ⟨reachable_allocN 256 256 _ Reachable.init, ?_⟩
  decide

/-- C5 (amended).  In every reachable state the stored cursor lies in
[0, capacity] — it reaches `capacity` itself exactly after index
`capacity - 1` is allocated — and whenever `alloc` on the state succeeds
returning index `i`, it sets the cursor to `i + 1`, which is congruent to
`(i + 1) mod capacity`.  The bound holds for every reachable state, full
states included. -/
theorem C5_cursor_amended (cap : Nat) (a : SeqIdAlloc) (h : Reachable cap a) :
    a.next_ptr ≤ cap
    ∧ ∀ i b, a.alloc = (some i, b) →
        b.next_ptr = i + 1 ∧ b.next_ptr % cap = (i + 1) % cap := by
  refine ⟨h.next_ptr_le, ?_⟩
  intro i b hab
  unfold SeqIdAlloc.alloc at hab
  cases hfc : findClearFrom a.bits a.next_ptr a.bits.length with
  | none =>
    rw [hfc] at hab
    exact absurd hab (by simp)
  | some j =>
    rw [hfc] at hab
    simp only [Prod.mk.injEq, Option.some.injEq] at hab
    obtain ⟨rfl, rfl⟩ := hab
    exact ⟨rfl, rfl⟩

/-- Witness for C5 (amended): the cursor bound at the fully allocated
capacity-2 state (where it is attained, `next_ptr = 2`), and the cursor
update at the first allocation on the fresh capacity-2 allocator. -/
theorem C5_cursor_amended_witness :
    ((SeqIdAlloc.init 2).allocN 2).next_ptr ≤ 2
    ∧ (SeqIdAlloc.init 2).next_ptr ≤ 2
    ∧ (SeqIdAlloc.mk 1 [true, false]).next_ptr = 0 + 1
    ∧ (SeqIdAlloc.mk 1 [true, false]).next_ptr % 2 = (0 + 1) % 2 :=
  ⟨(C5_cursor_amended 2 ((SeqIdAlloc.init 2).allocN 2)
      (reachable_allocN 2 2 _ Reachable.init)).1,
   (C5_cursor_amended 2 (SeqIdAlloc.init 2) Reachable.init).1,
   (C5_cursor_amended 2 (SeqIdAlloc.init 2) Reachable.init).2 0
      ⟨1, [true, false]⟩ rfl⟩

/-- C6.  In every reachable state, `size` never exceeds the capacity,
`is_full` holds iff `size` equals the capacity, and `is_full` holds iff the
next `alloc` returns `none`. -/
theorem C6_size_is_full (cap : Nat) (a : SeqIdAlloc) (h : Reachable cap a) :
    a.size ≤ cap
    ∧ (a.is_full = true ↔ a.size = cap)
    ∧ (a.is_full = true ↔ a.alloc.1 = none) := by
  have hlen := h.length_eq
  have hcount := count_true_add_count_false a.bits
  have hsize : a.size ≤ cap := by
    have := List.count_le_length true a.bits
    unfold SeqIdAlloc.size
    omega
  refine ⟨hsize, ?_, ?_⟩
  · unfold SeqIdAlloc.is_full SeqIdAlloc.size
    rw [beq_iff_eq]
    unfold SeqIdAlloc.size at hsize
    constructor
    · intro hz; omega
    · intro hc; omega
  · constructor
    · intro hfull
      rw [C4_exhaustion_atomic a hfull]
    · intro hnone
      unfold SeqIdAlloc.alloc at hnone
      cases hfc : findClearFrom a.bits a.next_ptr a.bits.length with
      | none =>
        unfold SeqIdAlloc.is_full
        rw [beq_iff_eq]
        exact count_false_zero_of_scan_none hfc
      | some j =>
        rw [hfc] at hnone
        exact absurd hnone (by simp)

/-- Witness for C6 at the fresh capacity-1 allocator. -/
theorem C6_size_is_full_witness :
    (SeqIdAlloc.init 1).size ≤ 1
    ∧ ((SeqIdAlloc.init 1).is_full = true ↔ (SeqIdAlloc.init 1).size = 1)
    ∧ ((SeqIdAlloc.init 1).is_full = true ↔ (SeqIdAlloc.init 1).alloc.1 = none) :=
  C6_size_is_full 1 (SeqIdAlloc.init 1) Reachable.init

/-- C7.  No double-issue: whenever `alloc` on a reachable state returns
index `i`, the state before the call did not contain `i`. -/
theorem C7_no_double_issue (cap : Nat) (a : SeqIdAlloc) (i : Nat) (b : SeqIdAlloc)
    (h : Reachable cap a) (hab : a.alloc = (some i, b)) :
    a.contains i = false := by
  unfold SeqIdAlloc.alloc at hab
  cases hfc : findClearFrom a.bits a.next_ptr a.bits.length with
  | none =>
    rw [hfc] at hab
    exact absurd hab (by simp)
  | some j =>
    rw [hfc] at hab
    simp only [Prod.mk.injEq, Option.some.injEq] at hab
    obtain ⟨rfl, -⟩ := hab
    obtain ⟨hj, hclear⟩ := findClearFrom_some hfc
    unfold SeqIdAlloc.contains
    rw [List.getD_eq_getElem _ _ hj] at hclear ⊢
    exact hclear

/-- Witness for C7: the first allocation on the fresh capacity-2 allocator
returns index 0, which was not contained before the call. -/
theorem C7_no_double_issue_witness : (SeqIdAlloc.init 2).contains 0 = false :=
  C7_no_double_issue 2 (SeqIdAlloc.init 2) 0 ⟨1, [true, false]⟩ Reachable.init rfl

/-- C8.  Idempotent free: for any state and in-range identifier, a second
`dealloc` of the same identifier is a no-op, and `contains` is false
afterward. -/
theorem C8_idempotent_free (a : SeqIdAlloc) (id : Nat) (h : id < a.capacity) :
    (a.dealloc id).dealloc id = a.dealloc id
    ∧ (a.dealloc id).contains id = false := by
  constructor
  · unfold SeqIdAlloc.dealloc
    rw [List.set_set]
  · unfold SeqIdAlloc.dealloc SeqIdAlloc.contains
    have hlt : id < (a.bits.set id false).length := by
      rw [List.length_set]
      exact h
    rw [List.getD_eq_getElem _ _ hlt]
    exact List.getElem_set_self hlt

/-- Witness for C8 at the fresh capacity-1 allocator and identifier 0. -/
theorem C8_idempotent_free_witness :
    ((SeqIdAlloc.init 1).dealloc 0).dealloc 0 = (SeqIdAlloc.init 1).dealloc 0
    ∧ ((SeqIdAlloc.init 1).dealloc 0).contains 0 = false :=
  C8_idempotent_free (SeqIdAlloc.init 1) 0 (by decide)

/-- An operation on the allocator: an `alloc` call or a `dealloc` call. -/
inductive AllocOp where
  | opAlloc : AllocOp
  | opFree : Nat → AllocOp

/-- Run a list of operations on the implementation state, recording each
`alloc` call's result (`none` is recorded for `dealloc` steps). -/
def SeqIdAlloc.run (a : SeqIdAlloc) : List AllocOp → List (Option Nat) × SeqIdAlloc
  | [] => ([], a)
  | AllocOp.opAlloc :: ops =>
    let r := a.alloc
    let rest := r.2.run ops
    (r.1 :: rest.1, rest.2)
  | AllocOp.opFree id :: ops =>
    let rest := (a.dealloc id).run ops
    (none :: rest.1, rest.2)

/-- The spec's idealised allocator: identical occupancy bits, but the cursor
is kept reduced modulo the capacity after every successful allocation
(`cursor = (found_index + 1) mod capacity`). -/
structure ModAlloc where
  cursor : Nat
  bits : List Bool

/-- `alloc` of the idealised model: same scan, cursor stored mod capacity. -/
def ModAlloc.alloc (m : ModAlloc) : Option Nat × ModAlloc :=
  match findClearFrom m.bits m.cursor m.bits.length with
  | none => (none, m)
  | some i => (some i, ⟨(i + 1) % m.bits.length, m.bits.set i true⟩)

/-- `dealloc` of the idealised model. -/
def ModAlloc.dealloc (m : ModAlloc) (id : Nat) : ModAlloc :=
  ⟨m.cursor, m.bits.set id false⟩

/-- `contains` of the idealised model. -/
def ModAlloc.contains (m : ModAlloc) (id : Nat) : Bool :=
  m.bits.getD id false

/-- `is_full` of the idealised model. -/
def ModAlloc.is_full (m : ModAlloc) : Bool :=
  m.bits.count false == 0

/-- `size` of the idealised model. -/
def ModAlloc.size (m : ModAlloc) : Nat :=
  m.bits.count true

/-- Run a list of operations on the idealised model. -/
def ModAlloc.run (m : ModAlloc) : List AllocOp → List (Option Nat) × ModAlloc
  | [] => ([], m)
  | AllocOp.opAlloc :: ops =>
    let r := m.alloc
    let rest := r.2.run ops
    (r.1 :: rest.1, rest.2)
  | AllocOp.opFree id :: ops =>
    let rest := (m.dealloc id).run ops
    (none :: rest.1, rest.2)

/-- Simulation: if the two models hold the same bits and cursors congruent
modulo the capacity, every run produces the same results and same bits. -/
theorem run_sim (ops : List AllocOp) :
    ∀ (a : SeqIdAlloc) (m : ModAlloc), m.bits = a.bits →
      m.cursor % a.bits.length = a.next_ptr % a.bits.length →
      (a.run ops).1 = (m.run ops).1 ∧ (a.run ops).2.bits = (m.run ops).2.bits := by
  induction ops with
  | nil =>
    intro a m hbits hcur
    exact ⟨rfl, hbits.symm⟩
  | cons op rest ih =>
    intro a m hbits hcur
    cases op with
    | opAlloc =>
      have hscan : findClearFrom m.bits m.cursor m.bits.length
          = findClearFrom a.bits a.next_ptr a.bits.length := by
        rw [hbits]
        exact findClearFrom_congr _ hcur
      rw [SeqIdAlloc.run, ModAlloc.run]
      unfold SeqIdAlloc.alloc ModAlloc.alloc
      cases hfc : findClearFrom a.bits a.next_ptr a.bits.length with
      | none =>
        rw [hscan, hfc]
        have hrest := ih a m hbits hcur
        exact ⟨by rw [hrest.1], hrest.2⟩
      | some i =>
        rw [hscan, hfc]
        have hrest := ih ⟨i + 1, a.bits.set i true⟩
            ⟨(i + 1) % m.bits.length, m.bits.set i true⟩
            (by simp [hbits]) ?_
        · exact ⟨by rw [hrest.1], hrest.2⟩
        · simp only [List.length_set, hbits]
          exact Nat.mod_mod_of_dvd _ dvd_rfl
    | opFree id =>
      rw [SeqIdAlloc.run, ModAlloc.run]
      have hrest := ih (a.dealloc id) (m.dealloc id)
          (by simp [SeqIdAlloc.dealloc, ModAlloc.dealloc, hbits]) ?_
      · exact ⟨by rw [hrest.1], hrest.2⟩
      · simp only [SeqIdAlloc.dealloc, ModAlloc.dealloc, List.length_set, hbits]
        exact hcur

/-- C9.  The implementation, whose stored `next_ptr` may equal the capacity
itself, is observationally equivalent to the idealised model started with
the cursor reduced mod capacity: every run of alloc/free operations yields
identical alloc results, and afterwards `contains`, `size` and `is_full`
agree on the two final states. -/
theorem C9_mod_cursor_refinement (a : SeqIdAlloc) (ops : List AllocOp) :
    (a.run ops).1 = (ModAlloc.run ⟨a.next_ptr % a.bits.length, a.bits⟩ ops).1
    ∧ (∀ id, (a.run ops).2.contains id
        = (ModAlloc.run ⟨a.next_ptr % a.bits.length, a.bits⟩ ops).2.contains id)
    ∧ (a.run ops).2.size = (ModAlloc.run ⟨a.next_ptr % a.bits.length, a.bits⟩ ops).2.size
    ∧ (a.run ops).2.is_full
        = (ModAlloc.run ⟨a.next_ptr % a.bits.length, a.bits⟩ ops).2.is_full := by
  have h := run_sim ops a ⟨a.next_ptr % a.bits.length, a.bits⟩ rfl
      (Nat.mod_mod_of_dvd _ dvd_rfl)
  refine ⟨h.1, ?_, ?_, ?_⟩
  · intro id
    unfold SeqIdAlloc.contains ModAlloc.contains
    rw [h.2]
  · unfold SeqIdAlloc.size ModAlloc.size
    rw [h.2]
  · unfold SeqIdAlloc.is_full ModAlloc.is_full
    rw [h.2]

/-- C10.  In the `u8`/capacity-256 instantiation every external identifier
indexes within bounds (so `dealloc` and `contains` cannot hit the
out-of-range panic), the index-to-`u8` conversion inside `alloc` never
fails (the `u8` alloc is `none` exactly when the scan is), and `alloc`
returns `none` only when the pool is full. -/
theorem C10_u8_total (a : SeqIdAlloc) (id : Fin 256) (h : a.bits.length = 256) :
    id.val < a.bits.length
    ∧ (a.allocU8.1 = none ↔ a.alloc.1 = none)
    ∧ (a.allocU8.1 = none ↔ a.is_full = true) := by
  have hid : id.val < a.bits.length := by
    rw [h]
    exact id.isLt
  have hiff : a.allocU8.1 = none ↔ a.alloc.1 = none := by
    unfold SeqIdAlloc.allocU8 SeqIdAlloc.alloc
    cases hfc : findClearFrom a.bits a.next_ptr a.bits.length with
    | none => simp
    | some i =>
      have hi : i < 256 := h ▸ (findClearFrom_some hfc).1
      simp [u8TryFrom, hi]
  refine ⟨hid, hiff, hiff.trans ?_⟩
  constructor
  · intro hnone
    unfold SeqIdAlloc.alloc at hnone
    cases hfc : findClearFrom a.bits a.next_ptr a.bits.length with
    | none =>
      unfold SeqIdAlloc.is_full
      rw [beq_iff_eq]
      exact count_false_zero_of_scan_none hfc
    | some i =>
      rw [hfc] at hnone
      exact absurd hnone (by simp)
  · intro hfull
    rw [C4_exhaustion_atomic a hfull]

/-- Witness for C10 at the fresh `u8` allocator and identifier 37. -/
theorem C10_u8_total_witness :
    (37 : Fin 256).val < (SeqIdAlloc.init 256).bits.length
    ∧ ((SeqIdAlloc.init 256).allocU8.1 = none ↔ (SeqIdAlloc.init 256).alloc.1 = none)
    ∧ ((SeqIdAlloc.init 256).allocU8.1 = none ↔ (SeqIdAlloc.init 256).is_full = true) :=
  C10_u8_total (SeqIdAlloc.init 256) 37 rfl
